import Mathlib

/-!
Shallow embedding of the gots in-memory time-series storage engine
(`internal/service/storage/storage.go` and `api/api.go`), together with
proofs of its specified properties.

Samples (`api.Element`) carry an int64 nanosecond timestamp and an opaque
payload. A series is a `container/list` of samples kept non-decreasing by
timestamp; a shard owns a map from key to series. Machine integers are
modelled as `Int` (int64 values) and `Nat` (uint64 values) with the
uint64→int64 cast made explicit.
-/

namespace Gots

/-- `api.Element`: one time-series sample, `{Timestamp int64; Data []byte}`.
The payload is an opaque byte sequence. -/
structure Element where
  timestamp : Int
  data : List Nat
deriving DecidableEq, Repr

/-- Keys are strings, modelled by their UTF-8 byte sequences (the partition
hash consumes exactly these bytes). -/
abbrev Key := List Nat

/-- A series is non-decreasingly sorted by timestamp. -/
def SeriesSorted (l : List Element) : Prop :=
  List.Pairwise (fun a b => a.timestamp ≤ b.timestamp) l

instance (l : List Element) : Decidable (SeriesSorted l) := by
  unfold SeriesSorted; infer_instance

/-- The backward scan of `insert` (storage.go:404-413), expressed on the
reversed list: walking `l.Back()` toward the front is walking
`l.reverse` head-first. At the first existing element with
`elt.Timestamp >= existingElt.Timestamp` the new element is placed before
it (i.e. after it in the original order); reaching past the front is
`l.PushFront(elt)`. -/
def insertBack (e : Element) : List Element → List Element
  | [] => [e]
  | x :: xs =>
      if x.timestamp ≤ e.timestamp then e :: x :: xs
      else x :: insertBack e xs

/-- `insert` (storage.go:404-413): scan from the tail toward the head and
place `e` immediately after the first element whose timestamp is `≤`
`e.timestamp`; push `e` to the front when every timestamp is strictly
greater. -/
def insert (l : List Element) (e : Element) : List Element :=
  (insertBack e l.reverse).reverse

/-- `search` (storage.go:415-436): range scan over `[first, last)` with the
three early exits (empty list, back timestamp `< first`, front timestamp
`>= last`) followed by a front-to-back collect into a fresh slice. -/
def search (elts : List Element) (first last : Int) : List Element :=
  match elts.head?, elts.getLast? with
  | some frontTick, some lastTick =>
      if lastTick.timestamp < first then []
      else if last ≤ frontTick.timestamp then []
      else elts.filter fun tick =>
        decide (first ≤ tick.timestamp) && decide (tick.timestamp < last)
  | _, _ => []

/-- The inner loop of `expireOldElements` (storage.go:442-456) on one
series: remove elements from the front while the front timestamp is
`< firstTimestamp`; returns `(removed, survivors)` with the removed
elements in removal order. -/
def frontExpire (cutoff : Int) : List Element → List Element × List Element
  | [] => ([], [])
  | x :: xs =>
      if x.timestamp < cutoff then
        let p := frontExpire cutoff xs
        (x :: p.1, p.2)
      else ([], x :: xs)

/-- `elementMap`: a shard's keyed index, `map[string]*list.List`, modelled
as an association list with distinct keys. -/
abbrev ElementMap := List (Key × List Element)

/-- Go map read `data[key]`. -/
def emLookup (m : ElementMap) (k : Key) : Option (List Element) :=
  match m with
  | [] => none
  | kv :: rest => if kv.1 = k then some kv.2 else emLookup rest k

/-- Replacing the series stored under a present key (the in-place list
mutation of the Go code). -/
def emUpdate (m : ElementMap) (k : Key) (l : List Element) : ElementMap :=
  m.map fun kv => if kv.1 = k then (kv.1, l) else kv

/-- Distinct keys: the well-formedness every Go map enjoys. -/
def emWF (m : ElementMap) : Prop := (m.map Prod.fst).Nodup

instance (m : ElementMap) : Decidable (emWF m) := by
  unfold emWF; infer_instance

/-- The write task body (storage.go:335-348): an absent key gets a fresh
one-element list via `PushBack`; a present key gets `insert` into its
existing list. -/
def writeTask (m : ElementMap) (k : Key) (e : Element) : ElementMap :=
  match emLookup m k with
  | none => (k, [e]) :: m
  | some l => emUpdate m k (insert l e)

/-- `expireOldElements` (storage.go:438-465): front-expire every series with
the given cutoff, record one `(key, element)` callback invocation per
removed element when an `onExpire` handler is configured, and delete every
key whose series ended up empty. Returns the new map and the invocation
list. -/
def expireOldElements (m : ElementMap) (cutoff : Int) (hasOnExpire : Bool) :
    ElementMap × List (Key × Element) :=
  let processed := m.map fun kv => (kv.1, frontExpire cutoff kv.2)
  let invocations :=
    if hasOnExpire then
      processed.flatMap fun kv => kv.2.1.map fun e => (kv.1, e)
    else []
  let survivors := processed.map fun kv => (kv.1, kv.2.2)
  (survivors.filter fun kv => !kv.2.isEmpty, invocations)

/-- The Go cast `int64(first)` applied to a `uint64` value: two's-complement
reinterpretation. -/
def toInt64 (n : Nat) : Int :=
  if n < 2 ^ 63 then (n : Int) else (n : Int) - 2 ^ 64

/-- The two logical error kinds of the engine (`ErrorInvalidSearch`,
`ErrorNotFound{Key}`). -/
inductive SearchError where
  | invalidSearch : SearchError
  | notFound : Key → SearchError
deriving DecidableEq, Repr

/-- `storage.Search` (storage.go:358-373) against the owning shard's map:
reject with `ErrorInvalidSearch` before dispatching anything when
`first > last` (a uint64 comparison); otherwise the dispatched task reads
the map — never writing it — and replies with the range scan or
`ErrorNotFound`. The returned map is the shard state after the call. -/
def storageSearch (m : ElementMap) (key : Key) (first last : Nat) :
    ElementMap × Except SearchError (List Element) :=
  if last < first then (m, .error .invalidSearch)
  else
    match emLookup m key with
    | some elts => (m, .ok (search elts (toInt64 first) (toInt64 last)))
    | none => (m, .error (.notFound key))

/-- `api.NoUpperBound = 0x7FFFFFFFFFFFFFFF` (api/api.go). -/
def NoUpperBound : Nat := 0x7FFFFFFFFFFFFFFF

/-- `api.NoLowerBound = 0` (api/api.go). -/
def NoLowerBound : Nat := 0

/-! ### The partition hash

`storage.calculateWorkerPartition` feeds the key's UTF-8 bytes to
`xxhash.ChecksumString32`, the 32-bit xxHash checksum with seed 0, and
reduces the checksum modulo the worker count. The library's algorithm is
embedded here over `Nat` with explicit `% 2^32` masking. -/

/-- Reduction modulo 2^32 — every uint32 intermediate of the hash. -/
def u32 (n : Nat) : Nat := n % 4294967296

def prime32one : Nat := 2654435761
def prime32two : Nat := 2246822519
def prime32three : Nat := 3266489917
def prime32four : Nat := 668265263
def prime32five : Nat := 374761393

/-- 32-bit left rotation (argument assumed `< 2^32`, rotation `0 < r < 32`). -/
def rotl32 (x r : Nat) : Nat := u32 (x <<< r) + x >>> (32 - r)

/-- Little-endian 32-bit word from four bytes. -/
def le32 (b0 b1 b2 b3 : Nat) : Nat :=
  b0 + b1 * 256 + b2 * 65536 + b3 * 16777216

/-- One accumulator round of xxHash32. -/
def xxhRound (acc input : Nat) : Nat :=
  u32 (rotl32 (u32 (acc + u32 (input * prime32two))) 13 * prime32one)

/-- The 16-byte stripe loop: consume full stripes, feeding four lanes. -/
def xxhStripes (v1 v2 v3 v4 : Nat) :
    List Nat → Nat × Nat × Nat × Nat × List Nat
  | b0 :: b1 :: b2 :: b3 :: b4 :: b5 :: b6 :: b7 ::
    b8 :: b9 :: b10 :: b11 :: b12 :: b13 :: b14 :: b15 :: rest =>
      xxhStripes (xxhRound v1 (le32 b0 b1 b2 b3)) (xxhRound v2 (le32 b4 b5 b6 b7))
        (xxhRound v3 (le32 b8 b9 b10 b11)) (xxhRound v4 (le32 b12 b13 b14 b15)) rest
  | rest => (v1, v2, v3, v4, rest)

/-- The 4-byte tail loop. -/
def xxhTail4 (h : Nat) : List Nat → Nat × List Nat
  | b0 :: b1 :: b2 :: b3 :: rest =>
      xxhTail4 (u32 (rotl32 (u32 (h + u32 (le32 b0 b1 b2 b3 * prime32three))) 17 * prime32four)) rest
  | rest => (h, rest)

/-- The single-byte tail loop. -/
def xxhTail1 (h : Nat) : List Nat → Nat
  | b :: rest => xxhTail1 (u32 (rotl32 (u32 (h + u32 (b * prime32five))) 11 * prime32one)) rest
  | [] => h

/-- The final avalanche mix. -/
def xxhAvalanche (h : Nat) : Nat :=
  let h1 := h ^^^ (h >>> 15)
  let h2 := u32 (h1 * prime32two)
  let h3 := h2 ^^^ (h2 >>> 13)
  let h4 := u32 (h3 * prime32three)
  h4 ^^^ (h4 >>> 16)

/-- xxHash32 of a byte sequence with the given seed
(`xxhash.Checksum32` uses seed 0). -/
def xxh32 (seed : Nat) (bytes : List Nat) : Nat :=
  let lanes :=
    if 16 ≤ bytes.length then
      let s := xxhStripes (u32 (seed + prime32one + prime32two)) (u32 (seed + prime32two))
        (u32 seed) (u32 (seed + (4294967296 - prime32one))) bytes
      (u32 (rotl32 s.1 1 + rotl32 s.2.1 7 + rotl32 s.2.2.1 12 + rotl32 s.2.2.2.1 18),
        s.2.2.2.2)
    else (u32 (seed + prime32five), bytes)
  let h := u32 (lanes.1 + bytes.length)
  let t := xxhTail4 h lanes.2
  xxhAvalanche (xxhTail1 t.1 t.2)

/-- `storage.calculateWorkerPartition` (storage.go:399-402):
`int(xxhash.ChecksumString32(key)) % s.opts.WorkerCount`. The checksum is
below 2^32, so the int64 conversion is value-preserving and the Go `%` on
non-negative operands is `Nat.mod`. -/
def calculateWorkerPartition (workerCount : Nat) (key : Key) : Nat :=
  xxh32 0 key % workerCount

/-! ### The engine facade -/

/-- `storage.Options` restricted to what the synchronous facade semantics
observe: the worker count used by the router, and whether the two optional
collaborators — the expiry callback and the message counter, both nilable
in Go — are configured. -/
structure Options where
  workerCount : Nat
  hasOnExpire : Bool
  hasMessageCounter : Bool
deriving DecidableEq, Repr

/-- The externally visible effects of the synchronous phase of a facade
call: a counter increment, or a task enqueued on a shard's inbox. -/
inductive Event where
  | counterAdd : Nat → Event
  | enqueue : Nat → Key → Element → Event
deriving DecidableEq, Repr

/-- `storage.Write` (storage.go:331-349), as its ordered synchronous event
trace: `s.opts.MessageCounter.Add(1)` runs first — a method call on a nil
counter interface, which fails (`none`) when no counter is configured —
then the element is built from `ts.UnixNano()` and the payload and a write
task is enqueued on the partition's channel. -/
def storageWrite (opts : Options) (key : Key) (ts : Int) (payload : List Nat) :
    Option (List Event) :=
  if opts.hasMessageCounter then
    some [Event.counterAdd 1,
      Event.enqueue (calculateWorkerPartition opts.workerCount key) key
        ⟨ts, payload⟩]
  else none

/-! ### Lemmas about the backward-scan insert -/

/-- The predicate "strictly newer than `e`" guiding the backward scan. -/
def newer (e : Element) : Element → Bool := fun x => decide (e.timestamp < x.timestamp)

theorem insertBack_eq (e : Element) (r : List Element) :
    insertBack e r = r.takeWhile (newer e) ++ e :: r.dropWhile (newer e) := by
  induction r with
  | nil => rfl
  | cons x xs ih =>
      by_cases h : x.timestamp ≤ e.timestamp
      · simp [insertBack, List.takeWhile_cons, List.dropWhile_cons, newer, h, not_lt.mpr h]
      · simp [insertBack, List.takeWhile_cons, List.dropWhile_cons, newer, h, not_le.mp h, ih]

theorem insert_decomp (l : List Element) (e : Element) :
    l = (l.reverse.dropWhile (newer e)).reverse ++ (l.reverse.takeWhile (newer e)).reverse ∧
    insert l e =
      (l.reverse.dropWhile (newer e)).reverse ++ e :: (l.reverse.takeWhile (newer e)).reverse := by
  constructor
  · conv_lhs => rw [← List.reverse_reverse l, ← List.takeWhile_append_dropWhile (p := newer e) (l := l.reverse)]
    rw [List.reverse_append]
  · rw [insert, insertBack_eq, List.reverse_append, List.reverse_cons, List.append_assoc]
    simp

theorem mem_insertBack {y e : Element} {r : List Element} :
    y ∈ insertBack e r → y = e ∨ y ∈ r := by
  rw [insertBack_eq]
  intro hy
  have hsplit : ∀ z, z ∈ r.takeWhile (newer e) ∨ z ∈ r.dropWhile (newer e) → z ∈ r := by
    intro z hz
    have : z ∈ r.takeWhile (newer e) ++ r.dropWhile (newer e) := List.mem_append.mpr hz
    rwa [List.takeWhile_append_dropWhile] at this
  rcases List.mem_append.mp hy with h | h
  · exact Or.inr (hsplit y (Or.inl h))
  · rcases List.mem_cons.mp h with h | h
    · exact Or.inl h
    · exact Or.inr (hsplit y (Or.inr h))

theorem insertBack_sorted {e : Element} {r : List Element}
    (hr : List.Pairwise (fun a b => b.timestamp ≤ a.timestamp) r) :
    List.Pairwise (fun a b => b.timestamp ≤ a.timestamp) (insertBack e r) := by
  induction r with
  | nil => simp [insertBack]
  | cons x xs ih =>
      rcases List.pairwise_cons.mp hr with ⟨hx, hxs⟩
      by_cases h : x.timestamp ≤ e.timestamp
      · rw [insertBack, if_pos h]
        refine List.pairwise_cons.mpr ⟨?_, hr⟩
        intro y hy
        rcases List.mem_cons.mp hy with rfl | hy
        · exact h
        · exact le_trans (hx y hy) h
      · rw [insertBack, if_neg h]
        refine List.pairwise_cons.mpr ⟨?_, ih hxs⟩
        intro y hy
        rcases mem_insertBack hy with rfl | hy
        · exact le_of_not_le h
        · exact hx y hy

theorem insert_sorted {l : List Element} {e : Element} (hs : SeriesSorted l) :
    SeriesSorted (insert l e) := by
  have hrev : List.Pairwise (fun a b => b.timestamp ≤ a.timestamp) l.reverse := by
    rw [List.pairwise_reverse]; exact hs
  have := insertBack_sorted (e := e) hrev
  unfold SeriesSorted insert
  rw [List.pairwise_reverse]
  exact this

theorem head?_dropWhile_false {p : Element → Bool} {r : List Element} {y : Element}
    (h : (r.dropWhile p).head? = some y) : p y = false := by
  induction r with
  | nil => simp [List.dropWhile] at h
  | cons x xs ih =>
      rw [List.dropWhile_cons] at h
      by_cases hx : p x
      · rw [if_pos hx] at h; exact ih h
      · rw [if_neg hx] at h
        simp only [List.head?_cons, Option.some.injEq] at h
        subst h
        exact Bool.eq_false_iff.mpr hx

theorem insertBack_length (e : Element) (r : List Element) :
    (insertBack e r).length = r.length + 1 := by
  induction r with
  | nil => rfl
  | cons x xs ih =>
      by_cases h : x.timestamp ≤ e.timestamp
      · simp [insertBack, h]
      · simp [insertBack, h, ih]

theorem insert_length (l : List Element) (e : Element) :
    (insert l e).length = l.length + 1 := by
  simp [insert, insertBack_length]

/-- C1: the tail-biased insert places an incoming element immediately after
the first element (scanning tail to head) whose timestamp is `≤` the new
timestamp, pushes to the front when every existing timestamp is strictly
greater, keeps the series non-decreasingly sorted, and puts equal-timestamp
arrivals after the older equal-timestamp elements (no existing element that
ends up after `e` has `timestamp ≤ e.timestamp`, so ties keep arrival
order). -/
theorem insert_spec (l : List Element) (e : Element) (hs : SeriesSorted l) :
    SeriesSorted (insert l e) ∧
    ∃ l₁ l₂, l = l₁ ++ l₂ ∧ insert l e = l₁ ++ e :: l₂ ∧
      (∀ x ∈ l₂, e.timestamp < x.timestamp) ∧
      (∀ y, l₁.getLast? = some y → y.timestamp ≤ e.timestamp) := by
  obtain ⟨hdec, hins⟩ := insert_decomp l e
  refine ⟨insert_sorted hs, (l.reverse.dropWhile (newer e)).reverse,
    (l.reverse.takeWhile (newer e)).reverse, hdec, hins, ?_, ?_⟩
  · intro x hx
    rw [List.mem_reverse] at hx
    have := List.mem_takeWhile_imp hx
    simpa [newer] using this
  · intro y hy
    rw [List.getLast?_reverse] at hy
    have := head?_dropWhile_false hy
    simpa [newer] using this

/-- Witness for `insert_spec`: a concrete sorted series with a tie at 110. -/
theorem insert_spec_w :
    SeriesSorted [⟨100, []⟩, ⟨110, [7]⟩, ⟨120, []⟩] ∧
      (SeriesSorted (insert [⟨100, []⟩, ⟨110, [7]⟩, ⟨120, []⟩] ⟨110, [9]⟩) ∧
      ∃ l₁ l₂, [⟨100, []⟩, ⟨110, [7]⟩, ⟨120, []⟩] = l₁ ++ l₂ ∧
        insert [⟨100, []⟩, ⟨110, [7]⟩, ⟨120, []⟩] ⟨110, [9]⟩ = l₁ ++ ⟨110, [9]⟩ :: l₂ ∧
        (∀ x ∈ l₂, (110 : Int) < x.timestamp) ∧
        (∀ y, l₁.getLast? = some y → y.timestamp ≤ (110 : Int))) :=
  ⟨by decide, insert_spec [⟨100, []⟩, ⟨110, [7]⟩, ⟨120, []⟩] ⟨110, [9]⟩ (by decide)⟩

/-! ### Lemmas about the range scan -/

theorem sorted_head_le {l : List Element} {f : Element} (hs : SeriesSorted l)
    (hf : l.head? = some f) : ∀ x ∈ l, f.timestamp ≤ x.timestamp := by
  cases l with
  | nil => simp at hf
  | cons a rest =>
      simp only [List.head?_cons, Option.some.injEq] at hf
      subst hf
      intro x hx
      rcases List.mem_cons.mp hx with rfl | hx
      · exact le_refl _
      · exact (List.pairwise_cons.mp hs).1 x hx

theorem sorted_le_getLast {l : List Element} {b : Element} (hs : SeriesSorted l)
    (hb : l.getLast? = some b) : ∀ x ∈ l, x.timestamp ≤ b.timestamp := by
  have hrev : List.Pairwise (fun a c => c.timestamp ≤ a.timestamp) l.reverse := by
    rw [List.pairwise_reverse]; exact hs
  have hhead : l.reverse.head? = some b := by rw [List.head?_reverse]; exact hb
  intro x hx
  cases hr : l.reverse with
  | nil => rw [hr] at hhead; simp at hhead
  | cons a rest =>
      rw [hr] at hhead
      simp only [List.head?_cons, Option.some.injEq] at hhead
      subst hhead
      have hx' : x ∈ l.reverse := List.mem_reverse.mpr hx
      rw [hr] at hx' hrev
      rcases List.mem_cons.mp hx' with rfl | hx'
      · exact le_refl _
      · exact (List.pairwise_cons.mp hrev).1 x hx'

/-- The scan's in-range predicate, `first ≤ ts && ts < last`. -/
def inRange (first last : Int) : Element → Bool := fun tick =>
  decide (first ≤ tick.timestamp) && decide (tick.timestamp < last)

theorem search_eq_filter {l : List Element} (first last : Int) (hs : SeriesSorted l) :
    search l first last = l.filter (inRange first last) := by
  cases l with
  | nil => rfl
  | cons a rest =>
      obtain ⟨b, hb⟩ : ∃ b, (a :: rest).getLast? = some b := by
        cases h : (a :: rest).getLast? with
        | none => simp [List.getLast?_eq_none_iff] at h
        | some b => exact ⟨b, rfl⟩
      simp only [search, List.head?_cons, hb]
      by_cases h1 : b.timestamp < first
      · rw [if_pos h1]
        symm
        rw [List.filter_eq_nil_iff]
        intro x hx
        have := sorted_le_getLast hs hb x hx
        simp only [inRange, Bool.and_eq_true, decide_eq_true_eq, not_and]
        intro hfx
        omega
      · rw [if_neg h1]
        by_cases h2 : last ≤ a.timestamp
        · rw [if_pos h2]
          symm
          rw [List.filter_eq_nil_iff]
          intro x hx
          have := sorted_head_le hs (List.head?_cons) x hx
          simp only [inRange, Bool.and_eq_true, decide_eq_true_eq, not_and]
          intro hfx
          omega
        · rw [if_neg h2]
          rfl

/-- C2: on a sorted series with valid bounds, the range scan returns exactly
the samples with timestamps in the half-open interval `[first, last)`, in
front-to-back (ascending) order; being a filter of the stored series, the
result is constructed afresh rather than aliasing list nodes. -/
theorem search_spec (l : List Element) (first last : Int)
    (hs : SeriesSorted l) (hb : first ≤ last) :
    search l first last = l.filter (inRange first last) ∧
    SeriesSorted (search l first last) := by
  refine ⟨search_eq_filter first last hs, ?_⟩
  rw [search_eq_filter first last hs]
  exact List.Pairwise.filter _ hs

/-- Witness for `search_spec`: the spec's half-open-range scenario,
series `[100, 110, 120, 130, 130]` scanned over `[110, 130)`. -/
theorem search_spec_w :
    SeriesSorted [⟨100, []⟩, ⟨110, []⟩, ⟨120, []⟩, ⟨130, []⟩, ⟨130, []⟩] ∧ (110 : Int) ≤ 130 ∧
      (search [⟨100, []⟩, ⟨110, []⟩, ⟨120, []⟩, ⟨130, []⟩, ⟨130, []⟩] 110 130 =
        [⟨100, []⟩, ⟨110, []⟩, ⟨120, []⟩, ⟨130, []⟩, ⟨130, []⟩].filter (inRange 110 130) ∧
      SeriesSorted (search [⟨100, []⟩, ⟨110, []⟩, ⟨120, []⟩, ⟨130, []⟩, ⟨130, []⟩] 110 130)) :=
  ⟨by decide, by decide,
    search_spec [⟨100, []⟩, ⟨110, []⟩, ⟨120, []⟩, ⟨130, []⟩, ⟨130, []⟩] 110 130
      (by decide) (by decide)⟩

/-! ### Lemmas about front expiry -/

/-- "Stale at cutoff `c`": the removal condition of the expiry loop. -/
def stale (c : Int) : Element → Bool := fun x => decide (x.timestamp < c)

/-- "Alive at cutoff `c`": the survivor condition. -/
def alive (c : Int) : Element → Bool := fun x => decide (c ≤ x.timestamp)

theorem frontExpire_eq (c : Int) (l : List Element) :
    frontExpire c l = (l.takeWhile (stale c), l.dropWhile (stale c)) := by
  induction l with
  | nil => rfl
  | cons x xs ih =>
      by_cases h : x.timestamp < c
      · simp [frontExpire, h, ih, List.takeWhile_cons, List.dropWhile_cons, stale]
      · simp [frontExpire, h, List.takeWhile_cons, List.dropWhile_cons, stale]

theorem sorted_takeWhile_stale {c : Int} {l : List Element} (hs : SeriesSorted l) :
    l.takeWhile (stale c) = l.filter (stale c) := by
  induction l with
  | nil => rfl
  | cons x xs ih =>
      rcases List.pairwise_cons.mp hs with ⟨hx, hxs⟩
      by_cases h : x.timestamp < c
      · have hx1 : stale c x = true := by simp [stale, h]
        simp [List.takeWhile_cons, List.filter_cons, hx1, ih hxs]
      · have hx1 : stale c x = false := by simp [stale, h]
        simp only [List.takeWhile_cons, List.filter_cons, hx1, Bool.false_eq_true, if_false]
        symm
        rw [List.filter_eq_nil_iff]
        intro y hy
        have := hx y hy
        simp only [stale, decide_eq_true_eq]
        omega

theorem sorted_dropWhile_stale {c : Int} {l : List Element} (hs : SeriesSorted l) :
    l.dropWhile (stale c) = l.filter (alive c) := by
  induction l with
  | nil => rfl
  | cons x xs ih =>
      rcases List.pairwise_cons.mp hs with ⟨hx, hxs⟩
      by_cases h : x.timestamp < c
      · have hx1 : stale c x = true := by simp [stale, h]
        have hx2 : alive c x = false := by simp [alive]; omega
        simp only [List.dropWhile_cons, hx1, if_true, List.filter_cons, hx2]
        exact ih hxs
      · have hx1 : stale c x = false := by simp [stale, h]
        have hx2 : alive c x = true := by simp [alive]; omega
        simp only [List.dropWhile_cons, hx1, List.filter_cons, hx2]
        simp only [Bool.false_eq_true, if_false, if_true]
        congr 1
        symm
        rw [List.filter_eq_self]
        intro y hy
        have := hx y hy
        simp only [alive, decide_eq_true_eq]
        omega

/-! ### Lemmas about the shard map -/

theorem emLookup_mem {m : ElementMap} {k : Key} {l : List Element}
    (h : emLookup m k = some l) : (k, l) ∈ m := by
  induction m with
  | nil => simp [emLookup] at h
  | cons kv rest ih =>
      rw [emLookup] at h
      by_cases hk : kv.1 = k
      · rw [if_pos hk] at h
        simp only [Option.some.injEq] at h
        have hkl : (k, l) = kv := by rw [← hk, ← h]
        rw [hkl]
        exact List.mem_cons_self ..
      · rw [if_neg hk] at h
        exact List.mem_cons_of_mem _ (ih h)

theorem emLookup_eq_none {m : ElementMap} {k : Key} :
    emLookup m k = none ↔ k ∉ m.map Prod.fst := by
  induction m with
  | nil => simp [emLookup]
  | cons kv rest ih =>
      rw [emLookup]
      by_cases hk : kv.1 = k
      · simp [hk]
      · simp [hk, ih, Ne.symm hk]

theorem emLookup_mapVal (f : List Element → List Element) (m : ElementMap) (k : Key) :
    emLookup (m.map fun kv => (kv.1, f kv.2)) k = (emLookup m k).map f := by
  induction m with
  | nil => rfl
  | cons kv rest ih =>
      by_cases hk : kv.1 = k
      · simp [emLookup, hk]
      · simp [emLookup, hk, ih]

theorem emLookup_filter_none {m : ElementMap} {k : Key} (q : Key × List Element → Bool)
    (h : emLookup m k = none) : emLookup (m.filter q) k = none := by
  induction m with
  | nil => rfl
  | cons kv rest ih =>
      rw [emLookup] at h
      by_cases hk : kv.1 = k
      · rw [if_pos hk] at h; exact absurd h (by simp)
      · rw [if_neg hk] at h
        rw [List.filter_cons]
        by_cases hq : q kv
        · rw [if_pos hq, emLookup, if_neg hk]; exact ih h
        · rw [if_neg (by simpa using hq)]; exact ih h

theorem emLookup_filter {m : ElementMap} {k : Key} (q : Key × List Element → Bool)
    (hwf : emWF m) :
    emLookup (m.filter q) k =
      (emLookup m k).bind fun l => if q (k, l) then some l else none := by
  induction m with
  | nil => rfl
  | cons kv rest ih =>
      rcases List.nodup_cons.mp hwf with ⟨hk1, hrest⟩
      by_cases hk : kv.1 = k
      · have hnone : emLookup rest k = none := by
          rw [emLookup_eq_none]; rw [hk] at hk1; exact hk1
        rw [List.filter_cons]
        by_cases hq : q kv
        · rw [if_pos hq, emLookup, if_pos hk, emLookup, if_pos hk]
          have : q (k, kv.2) = true := by rw [← hk]; exact hq
          simp [this]
        · rw [if_neg (by simpa using hq), emLookup, if_pos hk]
          have : q (k, kv.2) = false := by
            rw [← hk]; exact Bool.eq_false_iff.mpr hq
          simp [this, emLookup_filter_none q hnone]
      · rw [List.filter_cons]
        by_cases hq : q kv
        · rw [if_pos hq, emLookup, if_neg hk, emLookup, if_neg hk]
          exact ih hrest
        · rw [if_neg (by simpa using hq), emLookup, if_neg hk]
          exact ih hrest

theorem emLookup_emUpdate_self (m : ElementMap) (k : Key) (l' : List Element) :
    emLookup (emUpdate m k l') k = (emLookup m k).map fun _ => l' := by
  induction m with
  | nil => rfl
  | cons kv rest ih =>
      rw [emUpdate, List.map_cons]
      by_cases hk : kv.1 = k
      · rw [if_pos hk]
        simp [emLookup, hk]
      · rw [if_neg hk]
        rw [show emLookup ((kv : Key × List Element) ::
            (rest.map fun kv => if kv.1 = k then (kv.1, l') else kv)) k =
          if kv.1 = k then some kv.2
          else emLookup (rest.map fun kv => if kv.1 = k then (kv.1, l') else kv) k from rfl]
        rw [if_neg hk, emLookup, if_neg hk]
        exact ih

theorem emLookup_emUpdate_ne {k k' : Key} (m : ElementMap) (l' : List Element)
    (h : k' ≠ k) : emLookup (emUpdate m k l') k' = emLookup m k' := by
  induction m with
  | nil => rfl
  | cons kv rest ih =>
      rw [emUpdate, List.map_cons]
      by_cases hk : kv.1 = k
      · have hne : kv.1 ≠ k' := by rw [hk]; exact fun hc => h hc.symm
        rw [if_pos hk]
        rw [show emLookup (((kv.1, l') : Key × List Element) ::
            (rest.map fun kv => if kv.1 = k then (kv.1, l') else kv)) k' =
          if kv.1 = k' then some l'
          else emLookup (rest.map fun kv => if kv.1 = k then (kv.1, l') else kv) k' from rfl]
        rw [if_neg hne, emLookup, if_neg hne]
        exact ih
      · rw [if_neg hk]
        rw [show emLookup ((kv : Key × List Element) ::
            (rest.map fun kv => if kv.1 = k then (kv.1, l') else kv)) k' =
          if kv.1 = k' then some kv.2
          else emLookup (rest.map fun kv => if kv.1 = k then (kv.1, l') else kv) k' from rfl]
        by_cases hk' : kv.1 = k'
        · rw [if_pos hk', emLookup, if_pos hk']
        · rw [if_neg hk', emLookup, if_neg hk']
          exact ih

theorem writeTask_lookup_self (m : ElementMap) (k : Key) (e : Element) :
    emLookup (writeTask m k e) k =
      some (match emLookup m k with | none => [e] | some l => insert l e) := by
  cases h : emLookup m k with
  | none => rw [writeTask, h]; simp [emLookup]
  | some l => rw [writeTask, h, emLookup_emUpdate_self, h]; rfl

theorem writeTask_lookup_ne {k k' : Key} (m : ElementMap) (e : Element) (h : k' ≠ k) :
    emLookup (writeTask m k e) k' = emLookup m k' := by
  cases hm : emLookup m k with
  | none => rw [writeTask, hm, emLookup, if_neg (fun hc => h hc.symm)]
  | some l => rw [writeTask, hm, emLookup_emUpdate_ne _ _ h]

/-- The survivor map of an expiry pass, unfolded to one map-then-filter. -/
theorem expire_fst (m : ElementMap) (c : Int) (b : Bool) :
    (expireOldElements m c b).1 =
      (m.map fun kv => (kv.1, (frontExpire c kv.2).2)).filter fun kv => !kv.2.isEmpty := by
  rw [expireOldElements, List.map_map]
  rfl

/-- The callback invocations of an expiry pass with a configured handler. -/
def invocationsOf (m : ElementMap) (c : Int) : List (Key × Element) :=
  m.flatMap fun kv => ((frontExpire c kv.2).1).map fun e => (kv.1, e)

theorem expire_snd_true (m : ElementMap) (c : Int) :
    (expireOldElements m c true).2 = invocationsOf m c := by
  rw [expireOldElements, invocationsOf]
  simp [List.flatMap_map]

theorem expire_snd_false (m : ElementMap) (c : Int) :
    (expireOldElements m c false).2 = [] := rfl

/-- Per-key characterization of the survivor map. -/
theorem emLookup_expire (m : ElementMap) (c : Int) (b : Bool) (k : Key) (hwf : emWF m) :
    emLookup (expireOldElements m c b).1 k =
      (emLookup m k).bind fun l =>
        if ((frontExpire c l).2).isEmpty then none else some (frontExpire c l).2 := by
  rw [expire_fst]
  have hwf2 : emWF ((m.map fun kv => (kv.1, (frontExpire c kv.2).2))) := by
    unfold emWF
    rw [List.map_map]
    exact hwf
  rw [emLookup_filter _ hwf2, emLookup_mapVal (fun l => (frontExpire c l).2)]
  cases emLookup m k with
  | none => rfl
  | some l => simp [Bool.not_eq_true']

theorem invocations_nil_of_not_mem {m : ElementMap} {c : Int} {k : Key}
    (h : k ∉ m.map Prod.fst) :
    (invocationsOf m c).filter (fun p => decide (p.1 = k)) = [] := by
  rw [List.filter_eq_nil_iff]
  intro p hp
  rcases List.mem_flatMap.mp hp with ⟨kv, hkv, hp2⟩
  rcases List.mem_map.mp hp2 with ⟨e, _, rfl⟩
  simp only [decide_eq_true_eq]
  intro hcontr
  exact h (List.mem_map.mpr ⟨kv, hkv, hcontr⟩)

/-- Per-key characterization of the callback invocations: with a configured
handler, the invocations carrying key `k` are exactly `k`'s removed
elements, in removal order, paired with `k`. -/
theorem invocations_filter_key {m : ElementMap} {c : Int} {k : Key} {l : List Element}
    (hwf : emWF m) (hl : emLookup m k = some l) :
    (invocationsOf m c).filter (fun p => decide (p.1 = k)) =
      ((frontExpire c l).1).map fun e => (k, e) := by
  induction m with
  | nil => simp [emLookup] at hl
  | cons kv rest ih =>
      rcases List.nodup_cons.mp hwf with ⟨hk1, hrest⟩
      rw [invocationsOf, List.flatMap_cons, List.filter_append]
      rw [emLookup] at hl
      by_cases hk : kv.1 = k
      · rw [if_pos hk] at hl
        simp only [Option.some.injEq] at hl
        have hrestnil : (invocationsOf rest c).filter (fun p => decide (p.1 = k)) = [] := by
          refine invocations_nil_of_not_mem ?_
          rw [← hk]
          exact hk1
        rw [show (rest.flatMap fun kv => ((frontExpire c kv.2).1).map fun e => (kv.1, e)) =
            invocationsOf rest c from rfl, hrestnil, List.append_nil]
        rw [List.filter_eq_self.mpr, hk, hl]
        intro p hp
        rcases List.mem_map.mp hp with ⟨e, _, rfl⟩
        simp [hk]
      · rw [if_neg hk] at hl
        have hheadnil : ((((frontExpire c kv.2).1).map fun e => (kv.1, e)).filter
            fun p => decide (p.1 = k)) = [] := by
          rw [List.filter_eq_nil_iff]
          intro p hp
          rcases List.mem_map.mp hp with ⟨e, _, rfl⟩
          simp [hk]
        rw [hheadnil, List.nil_append]
        exact ih hrest hl

/-- C3: one expiry pass leaves no sample older than the cutoff in any
series; each surviving series consists of exactly its original samples with
`timestamp ≥ cutoff` in their original order; and with a configured
`onExpire` handler every removed sample produces exactly the invocation
`(key, sample)`, in removal order, before the pass discards it. -/
theorem expireOldElements_spec (m : ElementMap) (c : Int) (b : Bool)
    (hwf : emWF m) (hs : ∀ k l, emLookup m k = some l → SeriesSorted l) :
    (∀ k l', emLookup (expireOldElements m c b).1 k = some l' →
      ∀ e ∈ l', c ≤ e.timestamp) ∧
    (∀ k l, emLookup m k = some l →
      emLookup (expireOldElements m c b).1 k =
        (if (l.filter (alive c)).isEmpty then none else some (l.filter (alive c)))) ∧
    (∀ k l, emLookup m k = some l →
      ((expireOldElements m c true).2.filter fun p => decide (p.1 = k)) =
        (l.filter (stale c)).map fun e => (k, e)) := by
  have hchar : ∀ k l, emLookup m k = some l →
      emLookup (expireOldElements m c b).1 k =
        (if (l.filter (alive c)).isEmpty then none else some (l.filter (alive c))) := by
    intro k l hl
    rw [emLookup_expire m c b k hwf, hl]
    show (if ((frontExpire c l).2).isEmpty then none else some (frontExpire c l).2) = _
    rw [frontExpire_eq]
    show (if (l.dropWhile (stale c)).isEmpty then none else some (l.dropWhile (stale c))) = _
    rw [sorted_dropWhile_stale (hs k l hl)]
  refine ⟨?_, hchar, ?_⟩
  · intro k l' h'
    cases hl : emLookup m k with
    | none =>
        rw [emLookup_expire m c b k hwf, hl] at h'
        exact absurd h' (by simp)
    | some l =>
        rw [hchar k l hl] at h'
        by_cases hemp : (l.filter (alive c)).isEmpty
        · rw [if_pos hemp] at h'
          exact absurd h' (by simp)
        · rw [if_neg hemp] at h'
          simp only [Option.some.injEq] at h'
          subst h'
          intro e he
          have := (List.mem_filter.mp he).2
          simpa [alive] using this
  · intro k l hl
    rw [expire_snd_true, invocations_filter_key hwf hl, frontExpire_eq]
    show (l.takeWhile (stale c)).map _ = _
    rw [sorted_takeWhile_stale (hs k l hl)]

/-- Witness for `expireOldElements_spec`: the spec's expiry scenario with
cutoff 110 on a shard holding one stale-then-fresh series. -/
theorem expireOldElements_spec_w :
    emWF [([65], [⟨100, []⟩, ⟨110, []⟩, ⟨120, []⟩])] ∧
      (∀ k l', emLookup (expireOldElements [([65], [⟨100, []⟩, ⟨110, []⟩, ⟨120, []⟩])] 110 true).1 k = some l' →
        ∀ e ∈ l', (110 : Int) ≤ e.timestamp) := by
  have h := expireOldElements_spec [([65], [⟨100, []⟩, ⟨110, []⟩, ⟨120, []⟩])] 110 true
    (by decide)
    (by
      intro k l hl
      have := emLookup_mem hl
      simp only [List.mem_singleton] at this
      rw [show l = [⟨100, []⟩, ⟨110, []⟩, ⟨120, []⟩] from congrArg Prod.snd this]
      decide)
  exact ⟨by decide, h.1⟩

/-- C5: after an expiry pass, a key whose series became empty in that pass
is absent from the shard index, and a key whose series still holds at least
one sample remains present (bound to exactly its surviving samples). -/
theorem expire_reap (m : ElementMap) (c : Int) (b : Bool) (k : Key) (l : List Element)
    (hwf : emWF m) (hs : SeriesSorted l) (hl : emLookup m k = some l) :
    (l.filter (alive c) = [] → emLookup (expireOldElements m c b).1 k = none) ∧
    (l.filter (alive c) ≠ [] →
      emLookup (expireOldElements m c b).1 k = some (l.filter (alive c))) := by
  have hchar : emLookup (expireOldElements m c b).1 k =
      (if (l.filter (alive c)).isEmpty then none else some (l.filter (alive c))) := by
    rw [emLookup_expire m c b k hwf, hl]
    show (if ((frontExpire c l).2).isEmpty then none else some (frontExpire c l).2) = _
    rw [frontExpire_eq]
    show (if (l.dropWhile (stale c)).isEmpty then none else some (l.dropWhile (stale c))) = _
    rw [sorted_dropWhile_stale hs]
  constructor
  · intro hemp
    rw [hchar, if_pos (by rw [hemp]; rfl)]
  · intro hne
    rw [hchar, if_neg (by rwa [List.isEmpty_iff])]

/-- Witness for `expire_reap`: cutoff 110 reaps the key holding only the
sample at 100, and keeps the key holding 110. -/
theorem expire_reap_w :
    emLookup (expireOldElements [([68], [⟨100, []⟩]), ([66], [⟨110, []⟩])] 110 false).1 [68] =
        none ∧
      emLookup (expireOldElements [([68], [⟨100, []⟩]), ([66], [⟨110, []⟩])] 110 false).1 [66] =
        some [⟨110, []⟩] := by
  constructor
  · exact (expire_reap [([68], [⟨100, []⟩]), ([66], [⟨110, []⟩])] 110 false [68] [⟨100, []⟩]
      (by decide) (by decide) (by decide)).1 (by decide)
  · have h := (expire_reap [([68], [⟨100, []⟩]), ([66], [⟨110, []⟩])] 110 false [66] [⟨110, []⟩]
      (by decide) (by decide) (by decide)).2 (by decide)
    rwa [show List.filter (alive 110) [⟨110, []⟩] = [⟨110, []⟩] from by decide] at h

/-- C9: the shard-index invariant "every present key maps to a non-empty
series" is preserved by the write task (an absent key receives the fresh
one-element series `[e]`; a present key receives an insertion, which grows
the series by exactly one) and re-established by every expiry pass (which
deletes emptied keys in the same pass). -/
theorem shard_nonempty_invariant (m : ElementMap) (k : Key) (e : Element) (c : Int) (b : Bool)
    (hinv : ∀ k' l, emLookup m k' = some l → l ≠ []) :
    (∀ k' l, emLookup (writeTask m k e) k' = some l → l ≠ []) ∧
    (∀ k' l, emLookup (expireOldElements m c b).1 k' = some l → l ≠ []) ∧
    (emLookup m k = none → emLookup (writeTask m k e) k = some [e]) ∧
    (∀ l, emLookup m k = some l → emLookup (writeTask m k e) k = some (insert l e) ∧
      (insert l e).length = l.length + 1) := by
  refine ⟨?_, ?_, ?_, ?_⟩
  · intro k' l hl
    by_cases hk : k' = k
    · subst hk
      rw [writeTask_lookup_self] at hl
      simp only [Option.some.injEq] at hl
      cases hm : emLookup m k' with
      | none => rw [hm] at hl; simp [← hl]
      | some l0 =>
          rw [hm] at hl
          have hl' : insert l0 e = l := hl
          intro hcontr
          have hlen : (insert l0 e).length = l0.length + 1 := insert_length l0 e
          rw [hl', hcontr] at hlen
          simp at hlen
    · rw [writeTask_lookup_ne m e hk] at hl
      exact hinv k' l hl
  · intro k' l hl
    rw [expire_fst] at hl
    have hmem := emLookup_mem hl
    have := (List.mem_filter.mp hmem).2
    simpa [List.isEmpty_iff] using this
  · intro hnone
    rw [writeTask_lookup_self, hnone]
  · intro l hl
    rw [writeTask_lookup_self, hl]
    exact ⟨rfl, insert_length l e⟩

/-- Witness for `shard_nonempty_invariant` at the empty shard map. -/
theorem shard_nonempty_invariant_w :
    (∀ k' l, emLookup (writeTask [] [1] ⟨5, []⟩) k' = some l → l ≠ []) ∧
    (∀ k' l, emLookup (expireOldElements [] 0 false).1 k' = some l → l ≠ []) ∧
    (emLookup [] [1] = none → emLookup (writeTask [] [1] ⟨5, []⟩) [1] = some [⟨5, []⟩]) ∧
    (∀ l, emLookup [] [1] = some l → emLookup (writeTask [] [1] ⟨5, []⟩) [1] = some (insert l ⟨5, []⟩) ∧
      (insert l ⟨5, []⟩).length = l.length + 1) :=
  shard_nonempty_invariant [] [1] ⟨5, []⟩ 0 false
    (fun k' l hl => absurd hl (by rw [emLookup]; exact Option.noConfusion))

/-- C4: the facade `Search` leaves shard state untouched, returns
`ErrorInvalidSearch` exactly when `first > last`, otherwise returns
`ErrorNotFound` exactly when the key is absent from its shard, and
otherwise replies with the range scan of the key's series. -/
theorem storageSearch_spec (m : ElementMap) (key : Key) (first last : Nat) :
    (storageSearch m key first last).1 = m ∧
    ((storageSearch m key first last).2 = .error .invalidSearch ↔ last < first) ∧
    (first ≤ last →
      ((storageSearch m key first last).2 = .error (.notFound key) ↔
        emLookup m key = none)) ∧
    (∀ l, first ≤ last → emLookup m key = some l →
      (storageSearch m key first last).2 =
        .ok (search l (toInt64 first) (toInt64 last))) := by
  by_cases h : last < first
  · refine ⟨?_, ?_, ?_, ?_⟩
    · rw [storageSearch, if_pos h]
    · rw [storageSearch, if_pos h]; simp [h]
    · intro hle; omega
    · intro l hle; omega
  · cases hm : emLookup m key with
    | none =>
        refine ⟨?_, ?_, ?_, ?_⟩
        · rw [storageSearch, if_neg h, hm]
        · rw [storageSearch, if_neg h, hm]
          simp only [h, iff_false]
          exact fun hc => SearchError.noConfusion (Except.error.inj hc)
        · intro _
          rw [storageSearch, if_neg h, hm]
          simp
        · intro l _ hl
          exact Option.noConfusion hl
    | some l0 =>
        refine ⟨?_, ?_, ?_, ?_⟩
        · rw [storageSearch, if_neg h, hm]
        · rw [storageSearch, if_neg h, hm]
          simp only [h, iff_false]
          exact fun hc => Except.noConfusion hc
        · intro _
          rw [storageSearch, if_neg h, hm]
          constructor
          · intro hc; exact Except.noConfusion hc
          · intro hc; exact Option.noConfusion hc
        · intro l _ hl
          have hll : l0 = l := by injection hl
          subst hll
          rw [storageSearch, if_neg h, hm]

/-- Witness for `storageSearch_spec`: the spec's invalid-bounds scenario
`Search(k, 130, 110)` next to a valid lookup on the same map. -/
theorem storageSearch_spec_w :
    (storageSearch [([107], [⟨100, []⟩])] [107] 130 110).2 = .error .invalidSearch ∧
      (storageSearch [([107], [⟨100, []⟩])] [107] 0 200).2 =
        .ok (search [⟨100, []⟩] (toInt64 0) (toInt64 200)) :=
  ⟨((storageSearch_spec [([107], [⟨100, []⟩])] [107] 130 110).2.1).mpr (by decide),
    (storageSearch_spec [([107], [⟨100, []⟩])] [107] 0 200).2.2.2 [⟨100, []⟩]
      (by decide) (by decide)⟩

/-- C6: the shard partition is the stable 32-bit hash of the key's bytes
reduced modulo the worker count; it is a pure function of the key (two
evaluations of equal keys agree), and its value always lies in
`[0, workerCount)`. -/
theorem calculateWorkerPartition_spec (workerCount : Nat) (key key' : Key)
    (hwc : 0 < workerCount) (hk : key = key') :
    calculateWorkerPartition workerCount key = xxh32 0 key % workerCount ∧
    calculateWorkerPartition workerCount key = calculateWorkerPartition workerCount key' ∧
    calculateWorkerPartition workerCount key < workerCount :=
  ⟨rfl, by rw [hk], Nat.mod_lt _ hwc⟩

/-- Witness for `calculateWorkerPartition_spec` on the bytes of "abc" with
256 workers. -/
theorem calculateWorkerPartition_spec_w :
    calculateWorkerPartition 256 [97, 98, 99] = xxh32 0 [97, 98, 99] % 256 ∧
    calculateWorkerPartition 256 [97, 98, 99] = calculateWorkerPartition 256 [97, 98, 99] ∧
    calculateWorkerPartition 256 [97, 98, 99] < 256 :=
  calculateWorkerPartition_spec 256 [97, 98, 99] [97, 98, 99] (by decide) rfl

/-- C7 (counterexample): on an engine whose `Options.MessageCounter` is not
configured, `Write` fails synchronously — `s.opts.MessageCounter.Add(1)` is
a method call on a nil interface — so "Write never fails synchronously"
does not hold for every constructed engine. -/
theorem storageWrite_nilCounter :
    storageWrite ⟨4, false, false⟩ [1] 0 [] = none := rfl

/-- C7 (amended): whenever a message counter is configured, `Write` never
fails synchronously and its synchronous phase is exactly one counter
increment of 1 followed by — strictly before enqueue — the write task being
placed on the partitioned shard's inbox. -/
theorem storageWrite_spec (opts : Options) (key : Key) (ts : Int) (payload : List Nat)
    (hc : opts.hasMessageCounter = true) :
    storageWrite opts key ts payload =
      some [Event.counterAdd 1,
        Event.enqueue (calculateWorkerPartition opts.workerCount key) key ⟨ts, payload⟩] := by
  rw [storageWrite, if_pos hc]

/-- Witness for `storageWrite_spec` on a two-worker engine. -/
theorem storageWrite_spec_w :
    storageWrite ⟨2, false, true⟩ [97] 100 [7] =
      some [Event.counterAdd 1,
        Event.enqueue (calculateWorkerPartition 2 [97]) [97] ⟨100, [7]⟩] :=
  storageWrite_spec ⟨2, false, true⟩ [97] 100 [7] rfl

/-- C8: with the sentinel bounds `oldest = 0` and `newest = 2^63 − 1`,
`Search` returns every sample of a live series — the sentinels are not
special-cased, they simply span the whole semantic interval
`[0, 2^63 − 1)` of realistic (non-negative, below-maximal) int64
nanosecond timestamps. -/
theorem storageSearch_noBounds (m : ElementMap) (key : Key) (l : List Element)
    (hl : emLookup m key = some l) (hs : SeriesSorted l)
    (hts : ∀ e ∈ l, 0 ≤ e.timestamp ∧ e.timestamp < 2 ^ 63 - 1) :
    (storageSearch m key NoLowerBound NoUpperBound).2 = .ok l := by
  rw [storageSearch, if_neg (by decide), hl]
  show Except.ok (search l (toInt64 NoLowerBound) (toInt64 NoUpperBound)) = _
  have h0 : toInt64 NoLowerBound = 0 := by decide
  have h1 : toInt64 NoUpperBound = 2 ^ 63 - 1 := by decide
  rw [h0, h1, search_eq_filter _ _ hs]
  congr 1
  rw [List.filter_eq_self]
  intro e he
  have := hts e he
  simp only [inRange, Bool.and_eq_true, decide_eq_true_eq]
  omega

/-- Witness for `storageSearch_noBounds`: the spec's basic scenario, the
series `[100, 110, 120]` returned whole. -/
theorem storageSearch_noBounds_w :
    (storageSearch [([107], [⟨100, []⟩, ⟨110, []⟩, ⟨120, []⟩])] [107]
        NoLowerBound NoUpperBound).2 =
      .ok [⟨100, []⟩, ⟨110, []⟩, ⟨120, []⟩] :=
  storageSearch_noBounds [([107], [⟨100, []⟩, ⟨110, []⟩, ⟨120, []⟩])] [107]
    [⟨100, []⟩, ⟨110, []⟩, ⟨120, []⟩] (by decide) (by decide) (by decide)

theorem search_equal_bounds (l : List Element) (x : Int) : search l x x = [] := by
  cases l with
  | nil => rfl
  | cons a rest =>
      obtain ⟨b, hb⟩ : ∃ b, (a :: rest).getLast? = some b := by
        cases h : (a :: rest).getLast? with
        | none => simp [List.getLast?_eq_none_iff] at h
        | some b => exact ⟨b, rfl⟩
      simp only [search, List.head?_cons, hb]
      by_cases h1 : b.timestamp < x
      · rw [if_pos h1]
      · rw [if_neg h1]
        by_cases h2 : x ≤ a.timestamp
        · rw [if_pos h2]
        · rw [if_neg h2]
          rw [List.filter_eq_nil_iff]
          intro y _
          simp only [Bool.and_eq_true, decide_eq_true_eq, not_and]
          intro hy
          omega

/-- C10: `Search(key, t, t)` on a live key is accepted — the rejection test
is strictly `oldest > newest` — and returns an empty result with no error,
the half-open window `[t, t)` being empty; shard state is untouched. -/
theorem storageSearch_emptyWindow (m : ElementMap) (key : Key) (t : Nat)
    (hk : (emLookup m key).isSome = true) :
    (storageSearch m key t t).2 = .ok [] ∧
    (storageSearch m key t t).2 ≠ .error .invalidSearch ∧
    (storageSearch m key t t).1 = m := by
  cases hm : emLookup m key with
  | none => rw [hm] at hk; exact absurd hk (by simp)
  | some l =>
      have hok : (storageSearch m key t t).2 = .ok [] := by
        rw [storageSearch, if_neg (lt_irrefl t), hm]
        show Except.ok (search l (toInt64 t) (toInt64 t)) = _
        rw [search_equal_bounds]
      refine ⟨hok, ?_, ?_⟩
      · rw [hok]; exact fun hc => Except.noConfusion hc
      · rw [storageSearch, if_neg (lt_irrefl t), hm]

/-- Witness for `storageSearch_emptyWindow` at `t = 110` on a live key. -/
theorem storageSearch_emptyWindow_w :
    (storageSearch [([107], [⟨100, []⟩, ⟨110, []⟩])] [107] 110 110).2 = .ok [] ∧
    (storageSearch [([107], [⟨100, []⟩, ⟨110, []⟩])] [107] 110 110).2 ≠
      .error .invalidSearch ∧
    (storageSearch [([107], [⟨100, []⟩, ⟨110, []⟩])] [107] 110 110).1 =
      [([107], [⟨100, []⟩, ⟨110, []⟩])] :=
  storageSearch_emptyWindow [([107], [⟨100, []⟩, ⟨110, []⟩])] [107] 110 (by decide)

end Gots
